import Mathlib

/-
  Shallow embedding of parlearn (parallel SGD trainer, C++) for checking the
  natural-language specification against the code.  Doubles are modelled as
  rationals; machine words as Nat with explicit bit operations.
-/

namespace parlearn

/-! ### util.hh -/

/-- Embeds util::sign from util.hh: returns 1.0 when x is nonnegative, -1.0 otherwise. -/
def util_sign (x : ℚ) : ℚ := if x ≥ 0 then 1 else -1

/-! ### vec.hh: dense and sparse vectors, dot products -/

/-- A vec cell tag: dense list of values, or sparse list of index-value pairs. -/
inductive Vec where
  | std (data : List ℚ)
  | sparse (data : List (Nat × ℚ))

instance : Inhabited Vec := ⟨Vec.std []⟩

/-- Embeds the assert condition of ops::dot(standard_vec, standard_vec) in vec.hh,
verbatim from the source, which reads: assert(a.size() == a.size()).
Note the second operand of the comparison is again a, not b. -/
def dense_dot_len_check (a b : List ℚ) : Bool := a.length == a.length

/-- Embeds the accumulation loop of ops::dot(standard_vec, standard_vec):
acc += a i * b i for i below a.size().  Out-of-range reads (undefined
behaviour in the source) are modelled by getD with default 0; theorems about
the value are only stated where both reads are in bounds. -/
def dense_dot (a b : List ℚ) : ℚ :=
  ((List.range a.length).map (fun i => a.getD i 0 * b.getD i 0)).sum

/-- Embeds the loop of ops::dot(standard_vec, sparse_vec): iterate the sparse
operand, index into the dense one. -/
def dense_sparse_dot (a : List ℚ) (b : List (Nat × ℚ)) : ℚ :=
  (b.map (fun e => a.getD e.1 0 * e.2)).sum

/-- Embeds the dispatch of ops::dot(standard_vec, vec) used by model::linear_Ax:
the dense weight vector against a tagged row. -/
def ops_dot_w_row (w : List ℚ) (row : Vec) : ℚ :=
  match row with
  | .std d => dense_dot w d
  | .sparse s => dense_sparse_dot w s

/-- Embeds model::linear_Ax: the vector of dot products of each row with w. -/
def linear_Ax (rows : List Vec) (w : List ℚ) : List ℚ :=
  rows.map (fun r => ops_dot_w_row w r)

/-- Embeds standard_vec::sign: apply util::sign to each entry. -/
def standard_vec_sign (v : List ℚ) : List ℚ := v.map util_sign

/-- Embeds model::linear_model::predict: sign of linear_Ax over the rows. -/
def predict (w : List ℚ) (rows : List Vec) : List ℚ :=
  standard_vec_sign (linear_Ax rows w)

/-! ### vec.hh: sparse_vec::ensureref followed by assignment through the
returned reference.  The value type is a parameter so the same embedding
serves the weight entries (rationals) and the binary reader (bit patterns). -/

/-- Embeds the slow path of sparse_vec::ensureref (std::lower_bound over the
sorted entry list) combined with the assignment through the returned
reference: walk to the first entry whose index is not below i; assign there
if the index matches, otherwise insert a fresh entry before it. -/
def insert_lb {α : Type} : List (Nat × α) → Nat → α → List (Nat × α)
  | [], i, v => [(i, v)]
  | e :: t, i, v =>
    if e.1 < i then e :: insert_lb t i v
    else if e.1 = i then (i, v) :: t
    else (i, v) :: e :: t

/-- Embeds sparse_vec::ensureref plus assignment through the returned
reference: the fast path appends when the list is empty or the last stored
index is below i, otherwise the lower-bound slow path runs. -/
def ensure_assign {α : Type} (l : List (Nat × α)) (i : Nat) (v : α) : List (Nat × α) :=
  match l.getLast? with
  | none => [(i, v)]
  | some e => if e.1 < i then l ++ [(i, v)] else insert_lb l i v

/-- Folds a sequence of ensureref-and-assign insertions over a sparse vector. -/
def ensure_fold (l : List (Nat × ℚ)) (ops : List (Nat × ℚ)) : List (Nat × ℚ) :=
  ops.foldl (fun acc op => ensure_assign acc op.1 op.2) l

/-- Stored entries are strictly ascending by index. -/
def idx_sorted {α : Type} (l : List (Nat × α)) : Prop :=
  l.Pairwise (fun a b => a.1 < b.1)

/-! ### tvec.hh and lvec.hh: version words -/

/-- Embeds the successful CAS of standard_tvec::lock on the version word:
set the LOCK bit (LOCK_MASK = 1). -/
def tvec_lock_word (v : Nat) : Nat := v ||| 1

/-- Embeds standard_tvec::unlock on the version word: shift out the LOCK bit,
add one to the logical version, shift back with LOCK clear. -/
def tvec_unlock_word (v : Nat) : Nat := ((v >>> 1) + 1) <<< 1

/-- Embeds the successful CAS of standard_lvec::lock on the reinterpreted
64-bit cell word: set the LOCK bit. -/
def lvec_lock_word (v : Nat) : Nat := v ||| 1

/-- Embeds standard_lvec::unlock on the 64-bit cell word: clear the LOCK bit
with the complement mask of LOCK_MASK. -/
def lvec_unlock_word (v : Nat) : Nat := v &&& 0xFFFFFFFFFFFFFFFE

/-! ### tvec.hh: the transactional batch commit -/

/-- Embeds the insertion step of sorting the write set by cell index, the
comparator being a.first less than b.first as in txn::commit. -/
def insert_write {α : Type} (e : Nat × α) : List (Nat × α) → List (Nat × α)
  | [] => [e]
  | f :: t => if e.1 < f.1 then e :: f :: t else f :: insert_write e t

/-- Sorts the buffered writes by cell index, as txn::commit does before
applying them. -/
def sort_writes {α : Type} (l : List (Nat × α)) : List (Nat × α) :=
  l.foldr insert_write []

/-- Embeds applying one buffered write in txn::commit: lock the cell, store
the value, unlock (which bumps the logical version by two). -/
def apply_write (st : (Nat → ℚ) × (Nat → Nat)) (e : Nat × ℚ) : (Nat → ℚ) × (Nat → Nat) :=
  (fun k => if k = e.1 then e.2 else st.1 k,
   fun k => if k = e.1 then tvec_unlock_word (tvec_lock_word (st.2 k)) else st.2 k)

/-- Embeds standard_tvec::txn::commit.  Arguments: the vector's version and
value state and the transaction's read and write buffers.  Result: the value
the function returns (none models the source falling off the end of the
non-void function on the validation-success path, where no return statement
executes), the new value and version state, and the buffers left in the
transaction.  On a failed validation the source clears both buffers and
returns false; on the success path it applies the sorted writes under
per-cell lock and reaches the end of the function without returning. -/
def txn_commit (vers : Nat → Nat) (vals : Nat → ℚ)
    (reads : List (Nat × Nat)) (writes : List (Nat × ℚ)) :
    Option Bool × ((Nat → ℚ) × (Nat → Nat)) × (List (Nat × Nat) × List (Nat × ℚ)) :=
  if reads.all (fun p => vers p.1 == p.2) then
    let st := (sort_writes writes).foldl apply_write (vals, vers)
    (none, st, (reads, writes))
  else
    (some false, (vals, vers), ([], []))

/-! ### dataset.hh: Fisher-Yates permutation, and the worker partition of
sgd.hh.  The index array is embedded as a function from positions to
contents; a swap exchanges two images. -/

/-- Embeds std::swap of two cells of the permutation array, the array being
viewed as a function from positions to stored indices. -/
def swap_at (st : Nat → Nat) (a b : Nat) : Nat → Nat :=
  fun k => if k = a then st b else if k = b then st a else st k

/-- The transposition of two positions, used to reason about swap_at. -/
def swap_fn (a b : Nat) (k : Nat) : Nat :=
  if k = a then b else if k = b then a else k

/-- The array function maps positions below n to contents below n,
injectively and surjectively. -/
def bij_on (f : Nat → Nat) (n : Nat) : Prop :=
  (∀ k, k < n → f k < n) ∧
  (∀ k1 k2, k1 < n → k2 < n → f k1 = f k2 → k1 = k2) ∧
  (∀ v, v < n → ∃ k, k < n ∧ f k = v)

/-- Embeds the loop of dataset::permute: for i from m down to 1, draw j i and
swap positions j i and i.  The draw function j stands for the PRNG; the
source draws uniformly on the closed range from 0 to i. -/
def fy_loop (j : Nat → Nat) : Nat → (Nat → Nat) → (Nat → Nat)
  | 0, st => st
  | i + 1, st => fy_loop j i (swap_at st (j (i + 1)) (i + 1))

/-- The permutation array after dataset::permute on a dataset of size n,
starting from util::range (the identity array) and running the loop from
n - 1 down to 1. -/
def permute_fn (n : Nat) (j : Nat → Nat) : Nat → Nat :=
  fy_loop j (n - 1) (fun k => k)

/-- The permutation as the list of array cells in position order. -/
def permute_list (n : Nat) (j : Nat → Nat) : List Nat :=
  (List.range n).map (permute_fn n j)

/-- Embeds the worker-count fallback in opt::parsgd::fit: one worker when the
dataset is smaller than the configured pool, otherwise the configured pool. -/
def actual_nworkers (n W : Nat) : Nat := if n < W then 1 else W

/-- Embeds the iterator range handed to worker i in opt::parsgd::fit: from
position i * b, up to position (i + 1) * b, except that the last worker runs
to the end of the permutation. -/
def worker_chunk {α : Type} (A b i : Nat) (l : List α) : List α :=
  if i + 1 = A then l.drop (i * b) else (l.drop (i * b)).take b

/-- The list of all worker chunks of one epoch, per opt::parsgd::fit with
b the integer quotient of n by the actual worker count. -/
def epoch_chunks {α : Type} (n W : Nat) (l : List α) : List (List α) :=
  (List.range (actual_nworkers n W)).map
    (fun i => worker_chunk (actual_nworkers n W) (n / actual_nworkers n W) i l)

/-! ### sgd.hh: the parallel SGD update rule, executed sequentially (the
per-example arithmetic is identical in the locked and unlocked regimes; the
shared state is a function from feature index to weight). -/

/-- Static configuration of opt::parsgd plus the per-fit data the workers
receive: the regularizer, the step-size constant, the step offset, the
dataset size, the feature-use counts and the loss derivative. -/
structure SGDParams where
  lam : ℚ
  c0 : ℚ
  t_offset : Nat
  n : Nat
  counts : Nat → Nat
  dloss : ℚ → ℚ → ℚ

/-- Embeds opt::parsgd::dot: s += value * state j over the stored entries
of the example. -/
def lvec_dot (x : List (Nat × ℚ)) (st : Nat → ℚ) : ℚ :=
  (x.map (fun e => e.2 * st e.1)).sum

/-- Embeds one iteration of the inner loop of opt::parsgd::work: read the
cell, compute the new weight with the sparse-aware regularization rescaling,
write it back. -/
def sgd_update_entry (P : SGDParams) (eta g : ℚ) (st : Nat → ℚ) (e : Nat × ℚ) : Nat → ℚ :=
  let w_old := st e.1
  let w_new := (1 - eta * P.lam * (P.n : ℚ) / ((P.counts e.1 : ℚ))) * w_old - eta * g * e.2
  fun k => if k = e.1 then w_new else st k

/-- Embeds the body of opt::parsgd::work for one example at overall step
index t_eff: the step size, the dot product over the example's stored
entries read before any update, the loss derivative, and the entry loop. -/
def sgd_process_example (P : SGDParams) (t_eff : Nat) (st : Nat → ℚ)
    (x : List (Nat × ℚ)) (y : ℚ) : Nat → ℚ :=
  let eta := P.c0 / (P.lam * (t_eff : ℚ))
  let g := P.dloss y (lvec_dot x st)
  x.foldl (sgd_update_entry P eta g) st

/-- Embeds opt::parsgd::work on a chunk: i is the 1-based position within the
chunk and the overall step index is (round - 1) * n + i + t_offset with round
the 1-based round number. -/
def sgd_work (P : SGDParams) (round : Nat) :
    Nat → (Nat → ℚ) → List (List (Nat × ℚ) × ℚ) → (Nat → ℚ)
  | _, st, [] => st
  | i, st, e :: rest =>
    sgd_work P round (i + 1)
      (sgd_process_example P ((round - 1) * P.n + i + P.t_offset) st e.1 e.2) rest

/-! ### gd.hh: the batch gradient-descent round -/

/-- Static configuration of opt::gd plus per-fit data: regularizer, step
constant, offset, dataset size and loss derivative. -/
structure GDParams where
  lam : ℚ
  c0 : ℚ
  t_offset : Nat
  n : Nat
  dloss : ℚ → ℚ → ℚ

/-- Embeds ops::dot(weight vector, example) inside opt::gd::fit: the weight
function indexed at each stored entry of the example. -/
def fn_dot_sparse (w : Nat → ℚ) (x : List (Nat × ℚ)) : ℚ :=
  (x.map (fun e => w e.1 * e.2)).sum

/-- Embeds the accumulation loop of opt::gd::fit: for every example, for
every stored entry, accum at the entry index gains value times dloss. -/
def gd_accum (P : GDParams) (w : Nat → ℚ) (exs : List (List (Nat × ℚ) × ℚ)) : Nat → ℚ :=
  exs.foldl
    (fun acc e =>
      let dl := P.dloss e.2 (fn_dot_sparse w e.1)
      e.1.foldl (fun acc2 p => fun k => if k = p.1 then acc2 p.1 + p.2 * dl else acc2 k) acc)
    (fun _ => 0)

/-- Embeds one round of opt::gd::fit with round1 the 1-based round number:
t_eff is round1 + t_offset, accum is scaled by eta over n, the weights decay
by one minus eta times lambda, and the scaled accum is subtracted. -/
def gd_round (P : GDParams) (round1 : Nat) (w : Nat → ℚ)
    (exs : List (List (Nat × ℚ) × ℚ)) : Nat → ℚ :=
  let eta := P.c0 / (P.lam * ((round1 + P.t_offset : Nat) : ℚ))
  let accum := gd_accum P w exs
  fun k => w k * (1 - eta * P.lam) - accum k * (eta / (P.n : ℚ))

/-- The value stored for feature k by the entry list x: the sum of the stored
values whose index is k (the single stored value when indices are distinct,
zero when k is absent). -/
def entry_coeff (x : List (Nat × ℚ)) (k : Nat) : ℚ :=
  ((x.filter (fun p => p.1 == k)).map Prod.snd).sum

/-- The full-gradient sum of the specification at feature k: the sum over
examples of dloss at the example times the example's stored value at k. -/
def gd_grad_sum (P : GDParams) (w : Nat → ℚ) (exs : List (List (Nat × ℚ) × ℚ)) (k : Nat) : ℚ :=
  (exs.map (fun e => P.dloss e.2 (fn_dot_sparse w e.1) * entry_coeff e.1 k)).sum

/-- Modelled from the words of the claim for comparison: the batch update in
which the subtracted gradient additionally contains the lambda times w term
on top of the decay factor. -/
def gd_round_claimC2 (P : GDParams) (round1 : Nat) (w : Nat → ℚ)
    (exs : List (List (Nat × ℚ) × ℚ)) : Nat → ℚ :=
  let eta := P.c0 / (P.lam * ((round1 + P.t_offset : Nat) : ℚ))
  fun k =>
    (1 - eta * P.lam) * w k -
      eta * ((1 / (P.n : ℚ)) * gd_grad_sum P w exs k + P.lam * w k)

/-! ### binary_file.hh: the sparse binary format -/

/-- Little-endian four-byte encoding of a 32-bit quantity, as the writer
emits it (values are reduced modulo two to the 32). -/
def u32le (m : Nat) : List Nat :=
  [m % 256, m / 256 % 256, m / 65536 % 256, m / 16777216 % 256]

/-- Little-endian eight-byte encoding of a 64-bit quantity (here the bit
pattern of one double value, kept abstract for bit-exactness). -/
def u64le (m : Nat) : List Nat :=
  [m % 256, m / 256 % 256, m / 65536 % 256, m / 16777216 % 256,
   m / 4294967296 % 256, m / 1099511627776 % 256,
   m / 281474976710656 % 256, m / 72057594037927936 % 256]

/-- The byte the writer stores for the int8 label (two's complement). -/
def i8_byte (y : Int) : Nat := (y % 256).toNat

/-- The label the reader recovers from one byte (int8 then widened). -/
def i8_val (b : Nat) : Int := if b < 128 then (b : Int) else (b : Int) - 256

/-- Embeds one example of binary_file::write_feature_file in sparse format:
the int8 label, the u32 entry count, then the index-value pairs. -/
def write_sparse_example (e : Int × List (Nat × Nat)) : List Nat :=
  i8_byte e.1 :: (u32le e.2.length ++ (e.2.map (fun p => u32le p.1 ++ u64le p.2)).flatten)

/-- Embeds binary_file::write_feature_file in sparse format: the header byte
two, then every example in order. -/
def write_feature_file_sparse (exs : List (Int × List (Nat × Nat))) : List Nat :=
  2 :: (exs.map write_sparse_example).flatten

/-- Reads one byte as an int8 label. -/
def read_i8 : List Nat → Option (Int × List Nat)
  | b :: r => some (i8_val b, r)
  | [] => none

/-- Reads four little-endian bytes as a 32-bit value. -/
def read_u32 : List Nat → Option (Nat × List Nat)
  | b0 :: b1 :: b2 :: b3 :: r =>
    some (b0 + 256 * b1 + 65536 * b2 + 16777216 * b3, r)
  | _ => none

/-- Reads eight little-endian bytes as a 64-bit value. -/
def read_u64 : List Nat → Option (Nat × List Nat)
  | b0 :: b1 :: b2 :: b3 :: b4 :: b5 :: b6 :: b7 :: r =>
    some (b0 + 256 * b1 + 65536 * b2 + 16777216 * b3 + 4294967296 * b4 +
      1099511627776 * b5 + 281474976710656 * b6 + 72057594037927936 * b7, r)
  | _ => none

/-- Embeds binary_file::read_feature_vector in sparse format: m times, read
an index and a value and store them through ensureref. -/
def read_feature_vector : Nat → List (Nat × Nat) → List Nat →
    Option (List (Nat × Nat) × List Nat)
  | 0, xv, bs => some (xv, bs)
  | m + 1, xv, bs =>
    match read_u32 bs with
    | none => none
    | some (idx, bs1) =>
      match read_u64 bs1 with
      | none => none
      | some (v, bs2) => read_feature_vector m (ensure_assign xv idx v) bs2

/-- Reads one sparse example: label, entry count, entries. -/
def read_sparse_example (bs : List Nat) :
    Option ((Int × List (Nat × Nat)) × List Nat) :=
  match read_i8 bs with
  | none => none
  | some (y, bs1) =>
    match read_u32 bs1 with
    | none => none
    | some (m, bs2) =>
      match read_feature_vector m [] bs2 with
      | none => none
      | some (xv, bs3) => some ((y, xv), bs3)

/-- Embeds the reader loop of binary_file::read_feature_file in sparse
format: read examples until the stream is exhausted.  The fuel argument
bounds the number of iterations; the caller passes the byte count, which
suffices because every example consumes at least one byte. -/
def read_sparse_examples : Nat → List Nat → Option (List (Int × List (Nat × Nat)))
  | _, [] => some []
  | 0, _ :: _ => none
  | fuel + 1, b :: bs =>
    match read_sparse_example (b :: bs) with
    | none => none
    | some (e, rest) =>
      match read_sparse_examples fuel rest with
      | none => none
      | some es => some (e :: es)

/-- Embeds binary_file::read_feature_file on a sparse-format byte string:
check the header byte, then read all examples. -/
def read_feature_file_sparse (bs : List Nat) : Option (List (Int × List (Nat × Nat))) :=
  match bs with
  | 2 :: body => read_sparse_examples body.length body
  | _ => none

/-- Concrete SGD configuration used to instantiate the update-rule theorem. -/
def sgd_wparams : SGDParams := ⟨1, 1, 0, 1, fun _ => 1, fun y s => s - y⟩

/-- Concrete one-example chunk used to instantiate the update-rule theorem. -/
def sgd_wchunk : List (List (Nat × ℚ) × ℚ) := [([(0, 1)], 1)]

/-- Concrete zero initial state used to instantiate the update-rule theorem. -/
def sgd_wstate : Nat → ℚ := fun _ => 0

/-!
## Theorems
-/

/-- Setting the LOCK bit of an even version word adds one to it. -/
theorem aux_or_one_of_even (v : Nat) (h : v % 2 = 0) : v ||| 1 = v + 1 := by
  apply Nat.eq_of_testBit_eq
  intro i
  cases i with
  | zero =>
    rw [Nat.testBit_lor, Nat.testBit_zero, Nat.testBit_zero, Nat.testBit_zero]
    have h1 : (1 : Nat) % 2 = 1 := by norm_num
    have h2 : (v + 1) % 2 = 1 := by omega
    simp [h1, h2]
  | succ i =>
    rw [Nat.testBit_lor, Nat.testBit_succ, Nat.testBit_succ, Nat.testBit_succ]
    have h1 : (1 : Nat) / 2 = 0 := by norm_num
    have h2 : (v + 1) / 2 = v / 2 := by omega
    rw [h1, h2]
    simp [Nat.zero_testBit]

/-- Clearing the LOCK bit of a 64-bit word drops its parity bit. -/
theorem aux_land_mask (v : Nat) (hv : v < 2 ^ 64) :
    v &&& 0xFFFFFFFFFFFFFFFE = v - v % 2 := by
  apply Nat.eq_of_testBit_eq
  intro i
  rw [Nat.testBit_land]
  cases i with
  | zero =>
    rw [Nat.testBit_zero, Nat.testBit_zero, Nat.testBit_zero]
    have h2 : (v - v % 2) % 2 = 0 := by omega
    norm_num [h2]
  | succ i =>
    rw [Nat.testBit_succ, Nat.testBit_succ, Nat.testBit_succ]
    have hm : (0xFFFFFFFFFFFFFFFE : Nat) / 2 = 2 ^ 63 - 1 := by norm_num
    have h2 : (v - v % 2) / 2 = v / 2 := by omega
    rw [hm, h2, Nat.testBit_two_pow_sub_one]
    by_cases hi : i < 63
    · simp [hi]
    · have hlt : v / 2 < 2 ^ i := by
        have ha : v / 2 < 2 ^ 63 := by omega
        have hb : (2 : Nat) ^ 63 ≤ 2 ^ i := Nat.pow_le_pow_right (by norm_num) (by omega)
        omega
      simp [hi, Nat.testBit_lt_two_pow hlt]

/-- Claim C5, counterexample: on the lock-only vector of lvec.hh, unlock after
lock returns the cell word to its pre-lock value; the word after unlock does
not equal the word before lock plus two.  Shown at word 4. -/
theorem lvec_unlock_counterexample :
    ¬ (lvec_unlock_word (lvec_lock_word 4) = 4 + 2) := by decide

/-- Claim C5, amended: for the versioned vector of tvec.hh, a lock and its
matching unlock with no interleaved writer add exactly two to the version
word; for the lock-only vector of lvec.hh, unlock merely clears the LOCK bit,
so the cell word returns to its pre-lock value. -/
theorem unlock_version_amended (v : Nat) (hev : v % 2 = 0) :
    tvec_unlock_word (tvec_lock_word v) = v + 2 ∧
    (v < 2 ^ 64 → lvec_unlock_word (lvec_lock_word v) = v) := by
  have hor : v ||| 1 = v + 1 := aux_or_one_of_even v hev
  constructor
  · show ((tvec_lock_word v >>> 1) + 1) <<< 1 = v + 2
    rw [show tvec_lock_word v = v + 1 from hor]
    rw [Nat.shiftRight_eq_div_pow, Nat.shiftLeft_eq]
    have h1 : (v + 1) / 2 ^ 1 = v / 2 := by omega
    rw [h1]
    omega
  · intro hlt
    show lvec_lock_word v &&& 0xFFFFFFFFFFFFFFFE = v
    rw [show lvec_lock_word v = v + 1 from hor]
    rw [aux_land_mask (v + 1) (by omega)]
    omega

/-- Witness for the amended C5 theorem at the even word 4. -/
theorem unlock_version_witness :
    tvec_unlock_word (tvec_lock_word 4) = 4 + 2 ∧
    lvec_unlock_word (lvec_lock_word 4) = 4 :=
  ⟨(unlock_version_amended 4 (by decide)).1,
   (unlock_version_amended 4 (by decide)).2 (by decide)⟩

/-- Claim C6: the transactional commit of tvec.hh, evaluated.  On the
validation-success path the source applies the sorted writes under per-cell
lock (the value is stored and the version advances by two) and then reaches
the end of the non-void function without executing a return statement, so no
boolean is produced (modelled as none); on a failed validation it returns
false, leaves the values unchanged and clears both transaction buffers. -/
theorem txn_commit_missing_return_eval :
    (txn_commit (fun _ => 0) (fun _ => 0) [] [(0, (1 : ℚ))]).1 = none ∧
    (txn_commit (fun _ => 0) (fun _ => 0) [] [(0, (1 : ℚ))]).2.1.1 0 = 1 ∧
    (txn_commit (fun _ => 0) (fun _ => 0) [] [(0, (1 : ℚ))]).2.1.2 0 = 2 ∧
    (txn_commit (fun _ => 0) (fun _ => 0) [(0, 5)] [(0, (1 : ℚ))]).1 = some false ∧
    (txn_commit (fun _ => 0) (fun _ => 0) [(0, 5)] [(0, (1 : ℚ))]).2.1.1 0 = 0 ∧
    (txn_commit (fun _ => 0) (fun _ => 0) [(0, 5)] [(0, (1 : ℚ))]).2.2 = ([], []) := by
  refine ⟨rfl, by decide, by decide, rfl, by decide, rfl⟩

/-- Claim C8, counterexample: an insertion through ensureref that assigns the
value zero leaves a stored zero entry, so not every stored value is nonzero
after insertions via ensure.  Shown for inserting value 0 at index 5 into the
empty sparse vector. -/
theorem ensure_zero_counterexample :
    (0 : ℚ) ∈ (ensure_assign ([] : List (Nat × ℚ)) 5 0).map Prod.snd := by
  decide

/-- Claim C9: the dense-by-dense dot product of vec.hh, evaluated.  Its
length assert compares the first operand's size with itself, so the check
passes even for operands of different lengths (the source then reads the
second operand out of bounds instead of aborting); for equal-length operands
the loop returns the sum of the aligned element products, evaluated here on
two concrete vectors. -/
theorem dense_dot_length_check_eval :
    dense_dot_len_check [1, 2] [3] = true ∧
    ([1, 2] : List ℚ).length ≠ ([3] : List ℚ).length ∧
    dense_dot [1, 2] [3, 4] = 11 := by
  refine ⟨rfl, by decide, by norm_num [dense_dot, List.range_succ]⟩

/-- Claim C3, counterexample: with a dataset of 2 examples and 3 configured
workers the engine allocates 1 worker, not the minimum of the two. -/
theorem actual_nworkers_counterexample : actual_nworkers 2 3 ≠ min 3 2 := by
  decide

/-- Claim C2, counterexample: the batch GD round of gd.hh does not subtract a
gradient containing the lambda times w term on top of the decay factor.  At
lambda = 1, c0 = 1, offset 0, one example with one feature, constant loss
derivative 1 and initial weight 1 the code produces -1 while the claimed
update produces -2. -/
theorem gd_update_rule_spec_counterexample :
    gd_round ⟨1, 1, 0, 1, fun _ _ => 1⟩ 1 (fun _ => 1) [([(0, 1)], 0)] 0 ≠
    gd_round_claimC2 ⟨1, 1, 0, 1, fun _ _ => 1⟩ 1 (fun _ => 1) [([(0, 1)], 0)] 0 := by
  norm_num [gd_round, gd_round_claimC2, gd_accum, gd_grad_sum, fn_dot_sparse,
    entry_coeff]

/-- Entries of the lower-bound insertion are old entries or the new pair. -/
theorem aux_insert_lb_mem {α : Type} (l : List (Nat × α)) (i : Nat) (v : α) :
    ∀ p ∈ insert_lb l i v, p ∈ l ∨ p = (i, v) := by
  induction l with
  | nil =>
    intro p hp
    simp only [insert_lb, List.mem_singleton] at hp
    exact Or.inr hp
  | cons e t ih =>
    intro p hp
    simp only [insert_lb] at hp
    split_ifs at hp with h1 h2
    · rcases List.mem_cons.mp hp with h | h
      · exact Or.inl (List.mem_cons.mpr (Or.inl h))
      · rcases ih p h with h' | h'
        · exact Or.inl (List.mem_cons.mpr (Or.inr h'))
        · exact Or.inr h'
    · rcases List.mem_cons.mp hp with h | h
      · exact Or.inr h
      · exact Or.inl (List.mem_cons.mpr (Or.inr h))
    · rcases List.mem_cons.mp hp with h | h
      · exact Or.inr h
      · exact Or.inl h

/-- The lower-bound insertion keeps the entries strictly ascending. -/
theorem aux_insert_lb_sorted {α : Type} (l : List (Nat × α)) (i : Nat) (v : α)
    (hs : idx_sorted l) : idx_sorted (insert_lb l i v) := by
  induction l with
  | nil => simp [insert_lb, idx_sorted]
  | cons e t ih =>
    unfold idx_sorted at hs ⊢
    rcases List.pairwise_cons.mp hs with ⟨hhead, htail⟩
    simp only [insert_lb]
    split_ifs with h1 h2
    · refine List.pairwise_cons.mpr ⟨?_, ih htail⟩
      intro q hq
      rcases aux_insert_lb_mem t i v q hq with h | h
      · exact hhead q h
      · rw [h]; exact h1
    · refine List.pairwise_cons.mpr ⟨?_, htail⟩
      intro q hq
      have := hhead q hq
      omega
    · refine List.pairwise_cons.mpr ⟨?_, hs⟩
      intro q hq
      rcases List.mem_cons.mp hq with h | h
      · rw [h]; omega
      · have := hhead q h; omega

/-- In a strictly ascending entry list every index is at most the last one. -/
theorem aux_sorted_last_le {α : Type} (l : List (Nat × α)) (e : Nat × α)
    (hs : idx_sorted l) (hl : l.getLast? = some e) : ∀ p ∈ l, p.1 ≤ e.1 := by
  induction l with
  | nil => simp at hl
  | cons a t ih =>
    intro p hp
    cases t with
    | nil =>
      simp only [List.getLast?_singleton, Option.some.injEq] at hl
      rcases List.mem_singleton.mp hp with h
      rw [h, ← hl]
    | cons b t2 =>
      rw [List.getLast?_cons_cons] at hl
      rcases List.pairwise_cons.mp hs with ⟨hhead, htail⟩
      rcases List.mem_cons.mp hp with h | h
      · have he : e ∈ b :: t2 := List.mem_of_mem_getLast? hl
        rw [h]
        exact le_of_lt (hhead e he)
      · exact ih htail hl p h

/-- Entries after one ensureref-and-assign are old entries or the new pair. -/
theorem aux_ensure_mem {α : Type} (l : List (Nat × α)) (i : Nat) (v : α) :
    ∀ p ∈ ensure_assign l i v, p ∈ l ∨ p = (i, v) := by
  unfold ensure_assign
  cases hl : l.getLast? with
  | none =>
    intro p hp
    simp only [List.mem_singleton] at hp
    exact Or.inr hp
  | some e =>
    dsimp only
    split_ifs with h1
    · intro p hp
      rcases List.mem_append.mp hp with h | h
      · exact Or.inl h
      · exact Or.inr (List.mem_singleton.mp h)
    · exact aux_insert_lb_mem l i v

/-- One ensureref-and-assign keeps the entries strictly ascending. -/
theorem aux_ensure_sorted {α : Type} (l : List (Nat × α)) (i : Nat) (v : α)
    (hs : idx_sorted l) : idx_sorted (ensure_assign l i v) := by
  unfold ensure_assign
  cases hl : l.getLast? with
  | none =>
    have : l = [] := List.getLast?_eq_none_iff.mp hl
    simp [this, idx_sorted]
  | some e =>
    dsimp only
    split_ifs with h1
    · unfold idx_sorted at hs ⊢
      rw [List.pairwise_append]
      refine ⟨hs, by simp, ?_⟩
      intro a ha b hb
      rcases List.mem_singleton.mp hb with h
      rw [h]
      have := aux_sorted_last_le l e hs hl a ha
      omega
    · exact aux_insert_lb_sorted l i v hs

/-- Claim C8, amended: for every sparse vector with strictly ascending stored
indices and every sequence of insertions through ensureref, the stored
entries remain strictly ascending by index; and when every initially stored
value and every inserted value is nonzero, every stored value is nonzero
after the insertions. -/
theorem ensure_sorted_amended (ops : List (Nat × ℚ)) (l : List (Nat × ℚ))
    (hs : idx_sorted l) :
    idx_sorted (ensure_fold l ops) ∧
    ((∀ p ∈ l, p.2 ≠ (0 : ℚ)) → (∀ op ∈ ops, op.2 ≠ (0 : ℚ)) →
      ∀ p ∈ ensure_fold l ops, p.2 ≠ 0) := by
  induction ops generalizing l with
  | nil => exact ⟨hs, fun h1 _ => h1⟩
  | cons op t ih =>
    have hs' := aux_ensure_sorted l op.1 op.2 hs
    have hmain := ih (ensure_assign l op.1 op.2) hs'
    simp only [ensure_fold, List.foldl_cons] at hmain ⊢
    refine ⟨hmain.1, ?_⟩
    intro h1 h2 p hp
    refine hmain.2 ?_ ?_ p hp
    · intro q hq
      rcases aux_ensure_mem l op.1 op.2 q hq with h | h
      · exact h1 q h
      · rw [h]
        exact h2 op (List.mem_cons.mpr (Or.inl rfl))
    · intro o ho
      exact h2 o (List.mem_cons.mpr (Or.inr ho))

/-- Witness for the amended C8 theorem: two ascending insertions into the
empty sparse vector leave a strictly ascending entry list. -/
theorem ensure_sorted_witness :
    idx_sorted (ensure_fold [] [(0, 1), (2, 3)]) :=
  (ensure_sorted_amended [(0, 1), (2, 3)] [] (by simp [idx_sorted])).1

/-- The inner accumulation loop of gd.hh adds, at every feature, the
example's stored value at that feature times the loss derivative. -/
theorem aux_gd_inner (dl : ℚ) (x : List (Nat × ℚ)) :
    ∀ (acc : Nat → ℚ) (k : Nat),
      (x.foldl (fun acc2 p => fun j => if j = p.1 then acc2 p.1 + p.2 * dl else acc2 j) acc) k
        = acc k + entry_coeff x k * dl := by
  induction x with
  | nil =>
    intro acc k
    simp [entry_coeff]
  | cons p t ih =>
    intro acc k
    simp only [List.foldl_cons]
    rw [ih]
    show (if k = p.1 then acc p.1 + p.2 * dl else acc k) + entry_coeff t k * dl
      = acc k + entry_coeff (p :: t) k * dl
    by_cases h : k = p.1
    · rw [if_pos h, h]
      have hc : entry_coeff (p :: t) p.1 = p.2 + entry_coeff t p.1 := by
        simp [entry_coeff, List.filter_cons]
      rw [hc]
      ring
    · rw [if_neg h]
      have hb : (p.1 == k) = false := by
        simp only [beq_eq_false_iff_ne, ne_eq]
        omega
      have hc : entry_coeff (p :: t) k = entry_coeff t k := by
        simp [entry_coeff, List.filter_cons, hb]
      rw [hc]

/-- The accumulation loop of gd.hh computes the per-feature gradient sum. -/
theorem aux_gd_accum_general (P : GDParams) (w : Nat → ℚ)
    (exs : List (List (Nat × ℚ) × ℚ)) :
    ∀ (acc : Nat → ℚ) (k : Nat),
      (exs.foldl (fun acc e =>
        let dl := P.dloss e.2 (fn_dot_sparse w e.1)
        e.1.foldl (fun acc2 p => fun j => if j = p.1 then acc2 p.1 + p.2 * dl else acc2 j) acc)
        acc) k
      = acc k + gd_grad_sum P w exs k := by
  induction exs with
  | nil =>
    intro acc k
    simp [gd_grad_sum]
  | cons e t ih =>
    intro acc k
    simp only [List.foldl_cons]
    rw [ih, aux_gd_inner]
    simp only [gd_grad_sum, List.map_cons, List.sum_cons]
    ring

/-- The accumulator of gd.hh equals the gradient sum at every feature. -/
theorem aux_gd_accum (P : GDParams) (w : Nat → ℚ)
    (exs : List (List (Nat × ℚ) × ℚ)) (k : Nat) :
    gd_accum P w exs k = gd_grad_sum P w exs k := by
  have h := aux_gd_accum_general P w exs (fun _ => 0) k
  simpa [gd_accum] using h

/-- Claim C2, amended: each round of the batch GD engine updates the weights
to (1 - eta lambda) w minus eta times the data term of the gradient alone
(one over n times the sum of dloss times x); the lambda w regularization
contribution enters through the decay factor, not additionally inside the
subtracted vector.  Equivalently the update is w minus eta times the full
regularized gradient including lambda w. -/
theorem gd_update_rule_amended (P : GDParams) (round1 : Nat) (w : Nat → ℚ)
    (exs : List (List (Nat × ℚ) × ℚ)) (k : Nat) :
    gd_round P round1 w exs k =
      (1 - P.c0 / (P.lam * ((round1 + P.t_offset : Nat) : ℚ)) * P.lam) * w k -
        P.c0 / (P.lam * ((round1 + P.t_offset : Nat) : ℚ)) *
          ((1 / (P.n : ℚ)) * gd_grad_sum P w exs k) ∧
    gd_round P round1 w exs k =
      w k - P.c0 / (P.lam * ((round1 + P.t_offset : Nat) : ℚ)) *
        ((1 / (P.n : ℚ)) * gd_grad_sum P w exs k + P.lam * w k) := by
  have hacc := aux_gd_accum P w exs k
  constructor
  · simp only [gd_round, hacc]
    ring
  · simp only [gd_round, hacc]
    ring

/-- Claim C10: every entry of predict is exactly one or minus one, and a row
whose inner product with the weights is zero predicts plus one, because
util::sign returns one for every nonnegative input. -/
theorem predict_sign_values (w : List ℚ) (rows : List Vec) :
    (∀ p ∈ predict w rows, p = 1 ∨ p = -1) ∧
    (∀ k, k < rows.length → ops_dot_w_row w (rows.getD k default) = 0 →
      (predict w rows).getD k 0 = 1) := by
  have hpred : predict w rows = rows.map (fun r => util_sign (ops_dot_w_row w r)) := by
    simp [predict, standard_vec_sign, linear_Ax, List.map_map]
  constructor
  · intro p hp
    rw [hpred] at hp
    rcases List.mem_map.mp hp with ⟨r, hr, hval⟩
    rw [← hval]
    unfold util_sign
    split_ifs
    · exact Or.inl rfl
    · exact Or.inr rfl
  · intro k hk h0
    have hget : rows.getD k default = rows[k] := by
      rw [List.getD_eq_getElem?_getD, List.getElem?_eq_getElem hk]
      rfl
    have hmap : (rows.map (fun r => util_sign (ops_dot_w_row w r))).getD k 0
        = util_sign (ops_dot_w_row w rows[k]) := by
      rw [List.getD_eq_getElem?_getD, List.getElem?_map, List.getElem?_eq_getElem hk]
      rfl
    rw [hget] at h0
    rw [hpred, hmap]
    unfold util_sign
    rw [h0]
    norm_num

/-- Witness for the C10 theorem: the empty weight vector against one empty
sparse row has inner product zero and prediction one. -/
theorem predict_sign_witness :
    (predict ([] : List ℚ) [Vec.sparse []]).getD 0 0 = 1 :=
  (predict_sign_values [] [Vec.sparse []]).2 0 (by decide) rfl

/-- A swap of two array cells is the old array read through a transposition
of positions. -/
theorem aux_swap_at_comp (st : Nat → Nat) (a b k : Nat) :
    swap_at st a b k = st (swap_fn a b k) := by
  unfold swap_at swap_fn
  split_ifs <;> rfl

/-- The transposition is an involution. -/
theorem aux_swap_fn_invol (a b k : Nat) : swap_fn a b (swap_fn a b k) = k := by
  unfold swap_fn
  split_ifs <;> omega

/-- The transposition of two positions below n stays below n. -/
theorem aux_swap_fn_lt (a b k n : Nat) (ha : a < n) (hb : b < n) (hk : k < n) :
    swap_fn a b k < n := by
  unfold swap_fn
  split_ifs <;> omega

/-- Swapping two cells below n preserves the array bijection invariant. -/
theorem aux_swap_bij (st : Nat → Nat) (a b n : Nat) (ha : a < n) (hb : b < n)
    (h : bij_on st n) : bij_on (swap_at st a b) n := by
  obtain ⟨hm, hi, hs⟩ := h
  refine ⟨?_, ?_, ?_⟩
  · intro k hk
    rw [aux_swap_at_comp]
    exact hm _ (aux_swap_fn_lt a b k n ha hb hk)
  · intro k1 k2 h1 h2 heq
    rw [aux_swap_at_comp, aux_swap_at_comp] at heq
    have hσ1 : swap_fn a b k1 < n := aux_swap_fn_lt a b k1 n ha hb h1
    have hσ2 : swap_fn a b k2 < n := aux_swap_fn_lt a b k2 n ha hb h2
    have heq2 := hi _ _ hσ1 hσ2 heq
    have := congrArg (swap_fn a b) heq2
    rwa [aux_swap_fn_invol, aux_swap_fn_invol] at this
  · intro v hv
    obtain ⟨k, hk, hkv⟩ := hs v hv
    refine ⟨swap_fn a b k, aux_swap_fn_lt a b k n ha hb hk, ?_⟩
    rw [aux_swap_at_comp, aux_swap_fn_invol]
    exact hkv

/-- The Fisher-Yates loop preserves the array bijection invariant as long as
every draw stays within its closed range. -/
theorem aux_fy_bij (j : Nat → Nat) (n : Nat) :
    ∀ m (st : Nat → Nat), m < n → (∀ i, 1 ≤ i → i ≤ m → j i ≤ i) →
      bij_on st n → bij_on (fy_loop j m st) n := by
  intro m
  induction m with
  | zero => intro st _ _ h; exact h
  | succ m ih =>
    intro st hm hj h
    show bij_on (fy_loop j m (swap_at st (j (m + 1)) (m + 1))) n
    have hjm : j (m + 1) ≤ m + 1 := hj (m + 1) (by omega) (by omega)
    refine ih _ (by omega) (fun i h1 h2 => hj i h1 (by omega)) ?_
    exact aux_swap_bij st (j (m + 1)) (m + 1) n (by omega) hm h

/-- The array produced by dataset::permute is a bijection of the positions. -/
theorem aux_permute_bij (n : Nat) (j : Nat → Nat) (hn : 1 ≤ n)
    (hj : ∀ i, 1 ≤ i → i ≤ n - 1 → j i ≤ i) : bij_on (permute_fn n j) n := by
  refine aux_fy_bij j n (n - 1) (fun k => k) (by omega) hj ?_
  exact ⟨fun k hk => hk, fun k1 k2 _ _ h => h, fun v hv => ⟨v, hv, rfl⟩⟩

/-- A list without duplicates holding exactly one element satisfying a
predicate has predicate count one. -/
theorem aux_countP_eq_one (l : List Nat) (p : Nat → Bool) (a : Nat)
    (hnd : l.Nodup) (ha : a ∈ l) (hpa : p a = true)
    (huniq : ∀ b ∈ l, p b = true → b = a) : l.countP p = 1 := by
  induction l with
  | nil => simp at ha
  | cons b t ih =>
    rcases List.nodup_cons.mp hnd with ⟨hbt, hndt⟩
    rw [List.countP_cons]
    by_cases hpb : p b = true
    · have hba : b = a := huniq b (List.mem_cons_self b t) hpb
      have hzero : t.countP p = 0 := by
        rw [List.countP_eq_zero]
        intro c hc hpc
        have : c = a := huniq c (List.mem_cons.mpr (Or.inr hc)) hpc
        rw [this, ← hba] at hc
        exact hbt hc
      simp [hzero, hpb]
    · have hat : a ∈ t := by
        rcases List.mem_cons.mp ha with h | h
        · rw [h] at hpa; exact absurd hpa hpb
        · exact h
      have := ih hndt hat (fun c hc hpc => huniq c (List.mem_cons.mpr (Or.inr hc)) hpc)
      simp [this, hpb]

/-- Every index below n occurs exactly once in the permutation list. -/
theorem aux_permute_count (n : Nat) (j : Nat → Nat) (hn : 1 ≤ n)
    (hj : ∀ i, 1 ≤ i → i ≤ n - 1 → j i ≤ i) :
    ∀ k, k < n → (permute_list n j).count k = 1 := by
  intro k hk
  obtain ⟨hm, hi, hs⟩ := aux_permute_bij n j hn hj
  obtain ⟨m, hmn, hmv⟩ := hs k hk
  unfold permute_list
  rw [List.count_eq_countP, List.countP_map]
  refine aux_countP_eq_one (List.range n) _ m (List.nodup_range n)
    (List.mem_range.mpr hmn) ?_ ?_
  · show (permute_fn n j m == k) = true
    simp [hmv]
  · intro b hb hpb
    have hbn : b < n := List.mem_range.mp hb
    have : permute_fn n j b = k := by
      simpa using hpb
    exact hi b m hbn hmn (by rw [this, hmv])

/-- Concatenating k blocks of width b and the remaining drop reassembles the
list. -/
theorem aux_take_drop_flatten {α : Type} (b : Nat) :
    ∀ (k : Nat) (l : List α),
      ((List.range k).map (fun i => (l.drop (i * b)).take b)).flatten ++ l.drop (k * b) = l := by
  intro k
  induction k with
  | zero => intro l; simp
  | succ k ih =>
    intro l
    rw [List.range_succ, List.map_append, List.flatten_append]
    simp only [List.map_cons, List.map_nil, List.flatten_cons, List.flatten_nil,
      List.append_nil]
    rw [List.append_assoc]
    have hdrop : (l.drop (k * b)).take b ++ l.drop ((k + 1) * b) = l.drop (k * b) := by
      have h1 : l.drop ((k + 1) * b) = (l.drop (k * b)).drop b := by
        rw [List.drop_drop]
        congr 1
        ring
      rw [h1, List.take_append_drop]
    rw [hdrop]
    exact ih l

/-- The worker chunks of one epoch concatenate back to the full permutation. -/
theorem aux_epoch_chunks_flatten {α : Type} (n W : Nat) (hW : 1 ≤ W) (l : List α) :
    (epoch_chunks n W l).flatten = l := by
  have hA : 1 ≤ actual_nworkers n W := by
    unfold actual_nworkers
    split_ifs <;> omega
  obtain ⟨m, hm⟩ : ∃ m, actual_nworkers n W = m + 1 :=
    ⟨actual_nworkers n W - 1, by omega⟩
  unfold epoch_chunks
  rw [hm]
  rw [List.range_succ, List.map_append, List.flatten_append]
  simp only [List.map_cons, List.map_nil, List.flatten_cons, List.flatten_nil,
    List.append_nil]
  have hmid : ∀ i ∈ List.range m,
      worker_chunk (m + 1) (n / (m + 1)) i l
        = (l.drop (i * (n / (m + 1)))).take (n / (m + 1)) := by
    intro i hi
    have : i < m := List.mem_range.mp hi
    unfold worker_chunk
    rw [if_neg (by omega)]
  have hlast : worker_chunk (m + 1) (n / (m + 1)) m l
      = l.drop (m * (n / (m + 1))) := by
    unfold worker_chunk
    rw [if_pos rfl]
  rw [List.map_congr_left hmid, hlast]
  exact aux_take_drop_flatten (n / (m + 1)) m l

/-- Claim C3, amended: with n at least one example and W configured workers,
the engine allocates one worker when n is below W and otherwise W workers
(not the minimum of the two); each non-final worker receives a contiguous
chunk of b = n / W' permutation slots, the final worker's chunk additionally
absorbs the remainder n mod W', and the chunks concatenate back to the whole
permutation. -/
theorem worker_partition_amended {α : Type} (n W : Nat) (l : List α)
    (hn : 1 ≤ n) (hW : 1 ≤ W) (hl : l.length = n) :
    actual_nworkers n W = (if n < W then 1 else W) ∧
    1 ≤ actual_nworkers n W ∧ actual_nworkers n W ≤ n ∧
    (∀ i, i + 1 < actual_nworkers n W →
      (worker_chunk (actual_nworkers n W) (n / actual_nworkers n W) i l).length
        = n / actual_nworkers n W) ∧
    (worker_chunk (actual_nworkers n W) (n / actual_nworkers n W)
        (actual_nworkers n W - 1) l).length
      = n / actual_nworkers n W + n % actual_nworkers n W ∧
    (epoch_chunks n W l).flatten = l := by
  obtain ⟨A, hA⟩ : ∃ A, actual_nworkers n W = A := ⟨_, rfl⟩
  have hA1 : 1 ≤ A := by
    rw [← hA]; unfold actual_nworkers; split_ifs <;> omega
  have hAn : A ≤ n := by
    rw [← hA]; unfold actual_nworkers; split_ifs <;> omega
  have hbA : A * (n / A) ≤ n := by
    calc A * (n / A) = n / A * A := by ring
      _ ≤ n := Nat.div_mul_le_self n A
  rw [hA]
  refine ⟨by rw [← hA]; rfl, hA1, hAn, ?_, ?_, aux_epoch_chunks_flatten n W hW l⟩
  · intro i hi
    unfold worker_chunk
    rw [if_neg (by omega)]
    rw [List.length_take, List.length_drop, hl]
    have hmul : (i + 1) * (n / A) ≤ A * (n / A) := by
      apply Nat.mul_le_mul_right
      omega
    have hsucc : (i + 1) * (n / A) = i * (n / A) + n / A := by ring
    omega
  · unfold worker_chunk
    rw [if_pos (by omega)]
    rw [List.length_drop, hl]
    have hdm : A * (n / A) + n % A = n := Nat.div_add_mod n A
    have h1 : (A - 1) * (n / A) + n / A = A * (n / A) := by
      have hA2 : A - 1 + 1 = A := by omega
      calc (A - 1) * (n / A) + n / A = (A - 1 + 1) * (n / A) := by ring
        _ = A * (n / A) := by rw [hA2]
    have key : (A - 1) * (n / A) + (n / A + n % A) = n := by
      rw [← Nat.add_assoc, h1, hdm]
    have hle : (A - 1) * (n / A) ≤ n := Nat.le.intro key
    rw [Nat.sub_eq_iff_eq_add hle]
    calc n = (A - 1) * (n / A) + (n / A + n % A) := key.symm
      _ = n / A + n % A + (A - 1) * (n / A) := by ring

/-- Witness for the amended C3 theorem: five examples over two workers give
chunks of sizes two and three that concatenate to the permutation. -/
theorem worker_partition_witness :
    actual_nworkers 5 2 = (if 5 < 2 then 1 else 2) ∧
    1 ≤ actual_nworkers 5 2 ∧ actual_nworkers 5 2 ≤ 5 ∧
    (∀ i, i + 1 < actual_nworkers 5 2 →
      (worker_chunk (actual_nworkers 5 2) (5 / actual_nworkers 5 2) i (List.range 5)).length
        = 5 / actual_nworkers 5 2) ∧
    (worker_chunk (actual_nworkers 5 2) (5 / actual_nworkers 5 2)
        (actual_nworkers 5 2 - 1) (List.range 5)).length
      = 5 / actual_nworkers 5 2 + 5 % actual_nworkers 5 2 ∧
    (epoch_chunks 5 2 (List.range 5)).flatten = List.range 5 :=
  worker_partition_amended 5 2 (List.range 5) (by decide) (by decide) (by decide)

/-- Every cell of the flattened epoch chunks over R rounds is counted R
times when each round's flattening counts it once. -/
theorem aux_flatten_rounds_count (g : Nat → List Nat) (k : Nat)
    (h1 : ∀ r, (g r).count k = 1) :
    ∀ R, (((List.range R).map g).flatten).count k = R := by
  intro R
  induction R with
  | zero => simp
  | succ R ih =>
    rw [List.range_succ, List.map_append, List.flatten_append, List.count_append]
    simp only [List.map_cons, List.map_nil, List.flatten_cons, List.flatten_nil,
      List.append_nil]
    rw [ih, h1]

/-- Claim C4: for a dataset of n at least 1, dataset::permute yields a list
of length n holding every index below n exactly once (for any in-range
sequence of PRNG draws); the workers' contiguous chunks of that permutation
concatenate back to it, so every example index is covered exactly once per
epoch, and over R rounds the concatenation of all chunks covers every index
exactly R times. -/
theorem permutation_coverage (n W R : Nat) (jf : Nat → Nat → Nat) (k : Nat)
    (hn : 1 ≤ n) (hW : 1 ≤ W)
    (hj : ∀ r i, 1 ≤ i → i ≤ n - 1 → jf r i ≤ i) (hk : k < n) :
    (∀ r, (permute_list n (jf r)).length = n ∧
      (permute_list n (jf r)).count k = 1 ∧
      ((epoch_chunks n W (permute_list n (jf r))).flatten).count k = 1) ∧
    (((List.range R).map
        (fun r => (epoch_chunks n W (permute_list n (jf r))).flatten)).flatten).count k
      = R := by
  have hper : ∀ r, (permute_list n (jf r)).length = n ∧
      (permute_list n (jf r)).count k = 1 ∧
      ((epoch_chunks n W (permute_list n (jf r))).flatten).count k = 1 := by
    intro r
    have hcount := aux_permute_count n (jf r) hn (hj r) k hk
    refine ⟨by simp [permute_list], hcount, ?_⟩
    rw [aux_epoch_chunks_flatten n W hW]
    exact hcount
  refine ⟨hper, ?_⟩
  exact aux_flatten_rounds_count _ k (fun r => (hper r).2.2) R

/-- Witness for the C4 theorem: three examples, two workers, two rounds,
with the PRNG draws all zero; index 0 is covered twice in total. -/
theorem permutation_coverage_witness :
    (((List.range 2).map
        (fun r => (epoch_chunks 3 2 (permute_list 3 ((fun _ _ => 0) r))).flatten)).flatten).count 0
      = 2 :=
  (permutation_coverage 3 2 2 (fun _ _ => 0) 0 (by decide) (by decide)
    (fun r i _ _ => Nat.zero_le i) (by decide)).2

/-- One entry update of opt::parsgd::work, applied at a feature index. -/
theorem aux_sgd_update_entry_apply (P : SGDParams) (eta g : ℚ) (st : Nat → ℚ)
    (e : Nat × ℚ) (k : Nat) :
    sgd_update_entry P eta g st e k =
      if k = e.1 then
        (1 - eta * P.lam * (P.n : ℚ) / (P.counts e.1 : ℚ)) * st e.1 - eta * g * e.2
      else st k := rfl

/-- Features outside an example's stored entries keep their weight through
the entry loop of opt::parsgd::work. -/
theorem aux_sgd_noupdate (P : SGDParams) (eta g : ℚ) (x : List (Nat × ℚ)) :
    ∀ (st : Nat → ℚ) (j : Nat), j ∉ x.map Prod.fst →
      (x.foldl (sgd_update_entry P eta g) st) j = st j := by
  induction x with
  | nil => intro st j _; rfl
  | cons e t ih =>
    intro st j hj
    simp only [List.map_cons, List.mem_cons, not_or] at hj
    simp only [List.foldl_cons]
    rw [ih _ j (by simpa using hj.2)]
    rw [aux_sgd_update_entry_apply, if_neg hj.1]

/-- For an example whose stored indices are distinct, the entry loop of
opt::parsgd::work leaves at each stored index the decayed old weight minus
the step times the loss derivative times the stored value, the old weight
being the one before the example's updates. -/
theorem aux_sgd_entry_val (P : SGDParams) (eta g : ℚ) (x : List (Nat × ℚ))
    (hnd : (x.map Prod.fst).Nodup) (p : Nat × ℚ) (hp : p ∈ x) :
    ∀ st : Nat → ℚ,
      (x.foldl (sgd_update_entry P eta g) st) p.1 =
        (1 - eta * P.lam * (P.n : ℚ) / (P.counts p.1 : ℚ)) * st p.1 - eta * g * p.2 := by
  induction x with
  | nil => exact absurd hp (List.not_mem_nil p)
  | cons e t ih =>
    intro st
    simp only [List.map_cons, List.nodup_cons] at hnd
    simp only [List.foldl_cons]
    rcases List.mem_cons.mp hp with h | h
    · rw [h]
      rw [aux_sgd_noupdate P eta g t _ e.1 hnd.1]
      rw [aux_sgd_update_entry_apply, if_pos rfl]
    · have hne : p.1 ≠ e.1 := by
        intro hc
        apply hnd.1
        rw [← hc]
        exact List.mem_map.mpr ⟨p, h, rfl⟩
      rw [ih hnd.2 h]
      rw [aux_sgd_update_entry_apply, if_neg hne]

/-- Running a worker chunk that splits as an append runs the two parts in
sequence, the second starting at the shifted 1-based position. -/
theorem aux_sgd_work_append (P : SGDParams) (round : Nat)
    (l1 l2 : List (List (Nat × ℚ) × ℚ)) :
    ∀ (i : Nat) (st : Nat → ℚ),
      sgd_work P round i st (l1 ++ l2)
        = sgd_work P round (i + l1.length) (sgd_work P round i st l1) l2 := by
  induction l1 with
  | nil => intro i st; simp [sgd_work]
  | cons e t ih =>
    intro i st
    show sgd_work P round (i + 1) _ (t ++ l2) = _
    rw [ih]
    have h1 : i + 1 + t.length = i + (e :: t).length := by
      simp [List.length_cons]
      omega
    rw [h1]
    rfl

/-- Claim C1: for the example at 1-based position k + 1 of a worker's chunk
in 1-based round r, with distinct stored indices, the engine applies the SGD
update with step index t_eff = (r - 1) n + (k + 1) + t_offset and step size
eta = c0 / (lambda t_eff): every stored entry (j, xj) replaces the weight at
j by (1 - eta lambda n / c j) w j - eta dloss(y, dot) xj, where w is the
state before that example and dot is the inner product over the example's
stored entries read before the updates. -/
theorem sgd_update_rule_correct (P : SGDParams) (round : Nat) (st : Nat → ℚ)
    (chunk : List (List (Nat × ℚ) × ℚ)) (k : Nat) (x : List (Nat × ℚ)) (y : ℚ)
    (hk : k < chunk.length) (he : chunk.getD k ([], 0) = (x, y))
    (hnd : (x.map Prod.fst).Nodup) (p : Nat × ℚ) (hp : p ∈ x) :
    sgd_work P round 1 st (chunk.take (k + 1)) p.1 =
      (1 - P.c0 / (P.lam * (((round - 1) * P.n + (k + 1) + P.t_offset : Nat) : ℚ))
          * P.lam * (P.n : ℚ) / (P.counts p.1 : ℚ))
        * sgd_work P round 1 st (chunk.take k) p.1
      - P.c0 / (P.lam * (((round - 1) * P.n + (k + 1) + P.t_offset : Nat) : ℚ))
        * P.dloss y (lvec_dot x (sgd_work P round 1 st (chunk.take k)))
        * p.2 := by
  have hgetd : chunk.getD k ([], 0) = chunk[k] := by
    rw [List.getD_eq_getElem?_getD, List.getElem?_eq_getElem hk]
    rfl
  have hxy : chunk[k] = (x, y) := by rw [← hgetd, he]
  have htake : chunk.take (k + 1) = chunk.take k ++ [(x, y)] := by
    rw [List.take_succ]
    rw [List.getElem?_eq_getElem hk, hxy]
    rfl
  have hlen : (chunk.take k).length = k := by
    rw [List.length_take]
    omega
  rw [htake, aux_sgd_work_append, hlen]
  show sgd_process_example P ((round - 1) * P.n + (1 + k) + P.t_offset)
      (sgd_work P round 1 st (chunk.take k)) x y p.1 = _
  have hpos : 1 + k = k + 1 := by omega
  rw [hpos]
  unfold sgd_process_example
  rw [aux_sgd_entry_val P _ _ x hnd p hp]

/-- Witness for the C1 theorem: one round, a one-example chunk with a single
stored entry, lambda and c0 one, zero initial state. -/
theorem sgd_update_rule_witness :
    sgd_work sgd_wparams 1 1 sgd_wstate (sgd_wchunk.take (0 + 1)) (0, (1 : ℚ)).1 =
      (1 - sgd_wparams.c0 /
          (sgd_wparams.lam * (((1 - 1) * sgd_wparams.n + (0 + 1) + sgd_wparams.t_offset : Nat) : ℚ))
          * sgd_wparams.lam * (sgd_wparams.n : ℚ) / (sgd_wparams.counts (0, (1 : ℚ)).1 : ℚ))
        * sgd_work sgd_wparams 1 1 sgd_wstate (sgd_wchunk.take 0) (0, (1 : ℚ)).1
      - sgd_wparams.c0 /
          (sgd_wparams.lam * (((1 - 1) * sgd_wparams.n + (0 + 1) + sgd_wparams.t_offset : Nat) : ℚ))
        * sgd_wparams.dloss 1 (lvec_dot [(0, 1)] (sgd_work sgd_wparams 1 1 sgd_wstate (sgd_wchunk.take 0)))
        * (0, (1 : ℚ)).2 :=
  sgd_update_rule_correct sgd_wparams 1 sgd_wstate sgd_wchunk 0 [(0, 1)] 1
    (by decide) (by decide) (by decide) (0, 1) (by decide)

/-- The int8 label byte decodes back to the label for labels representable
as signed 8-bit integers. -/
theorem aux_i8_roundtrip (y : Int) (h1 : -128 ≤ y) (h2 : y ≤ 127) :
    i8_val (i8_byte y) = y := by
  unfold i8_byte i8_val
  split_ifs with h <;> omega

/-- Four little-endian bytes decode back to the encoded 32-bit value. -/
theorem aux_read_u32 (m : Nat) (h : m < 4294967296) (t : List Nat) :
    read_u32 (u32le m ++ t) = some (m, t) := by
  simp only [u32le, List.cons_append, List.nil_append, read_u32]
  congr 2
  omega

/-- Eight little-endian bytes decode back to the encoded 64-bit value. -/
theorem aux_read_u64 (m : Nat) (h : m < 18446744073709551616) (t : List Nat) :
    read_u64 (u64le m ++ t) = some (m, t) := by
  simp only [u64le, List.cons_append, List.nil_append, read_u64]
  congr 2
  omega

/-- The reader's entry loop over the writer's entry bytes rebuilds the entry
list through ensureref insertions. -/
theorem aux_read_fv (entries : List (Nat × Nat)) :
    ∀ (xv : List (Nat × Nat)) (t : List Nat),
      (∀ p ∈ entries, p.1 < 4294967296 ∧ p.2 < 18446744073709551616) →
      read_feature_vector entries.length xv
          ((entries.map (fun p => u32le p.1 ++ u64le p.2)).flatten ++ t)
        = some (entries.foldl (fun acc p => ensure_assign acc p.1 p.2) xv, t) := by
  induction entries with
  | nil => intro xv t _; rfl
  | cons p rest ih =>
    intro xv t hb
    have hp := hb p (List.mem_cons_self p rest)
    simp only [List.map_cons, List.flatten_cons, List.length_cons]
    rw [List.append_assoc, List.append_assoc]
    show read_feature_vector (rest.length + 1) xv
        (u32le p.1 ++ (u64le p.2 ++ ((rest.map (fun p => u32le p.1 ++ u64le p.2)).flatten ++ t)))
      = _
    unfold read_feature_vector
    rw [aux_read_u32 p.1 hp.1]
    dsimp only
    rw [aux_read_u64 p.2 hp.2]
    dsimp only
    simp only [List.foldl_cons]
    exact ih (ensure_assign xv p.1 p.2) t
      (fun q hq => hb q (List.mem_cons.mpr (Or.inr hq)))

/-- When every stored index is below the inserted index, ensureref takes its
fast append path. -/
theorem aux_ensure_fast {α : Type} (acc : List (Nat × α)) (i : Nat) (v : α)
    (h : ∀ p ∈ acc, p.1 < i) : ensure_assign acc i v = acc ++ [(i, v)] := by
  unfold ensure_assign
  cases hl : acc.getLast? with
  | none =>
    have : acc = [] := List.getLast?_eq_none_iff.mp hl
    rw [this]
    rfl
  | some e =>
    have he : e ∈ acc := List.mem_of_mem_getLast? hl
    dsimp only
    rw [if_pos (h e he)]

/-- Folding ensureref insertions of strictly ascending entries onto a prefix
whose indices all come earlier appends the entries in order. -/
theorem aux_fold_ensure {α : Type} (entries : List (Nat × α)) :
    ∀ acc : List (Nat × α),
      (entries.map Prod.fst).Pairwise (· < ·) →
      (∀ p ∈ acc, ∀ q ∈ entries, p.1 < q.1) →
      entries.foldl (fun acc p => ensure_assign acc p.1 p.2) acc = acc ++ entries := by
  induction entries with
  | nil => intro acc _ _; simp
  | cons q rest ih =>
    intro acc hs hlt
    simp only [List.map_cons, List.pairwise_cons] at hs
    simp only [List.foldl_cons]
    have hfast : ensure_assign acc q.1 q.2 = acc ++ [q] := by
      rw [aux_ensure_fast acc q.1 q.2 (fun p hp => hlt p hp q (List.mem_cons_self q rest))]
    rw [hfast]
    rw [ih (acc ++ [q]) hs.2 ?_]
    · simp
    · intro p hp r hr
      rcases List.mem_append.mp hp with h | h
      · exact hlt p h r (List.mem_cons.mpr (Or.inr hr))
      · rcases List.mem_singleton.mp h with h'
        rw [h']
        exact hs.1 r.1 (List.mem_map.mpr ⟨r, hr, rfl⟩)

/-- The reader parses back one written sparse example and leaves the
remaining bytes. -/
theorem aux_read_example (e : Int × List (Nat × Nat)) (t : List Nat)
    (h1 : -128 ≤ e.1) (h2 : e.1 ≤ 127)
    (hs : (e.2.map Prod.fst).Pairwise (· < ·))
    (hb : ∀ p ∈ e.2, p.1 < 4294967296 ∧ p.2 < 18446744073709551616)
    (hlen : e.2.length < 4294967296) :
    read_sparse_example (write_sparse_example e ++ t) = some (e, t) := by
  unfold write_sparse_example read_sparse_example
  simp only [List.cons_append]
  show (match read_i8 (i8_byte e.1 ::
      ((u32le e.2.length ++ (e.2.map (fun p => u32le p.1 ++ u64le p.2)).flatten) ++ t)) with
    | none => none
    | some (y, bs1) =>
      match read_u32 bs1 with
      | none => none
      | some (m, bs2) =>
        match read_feature_vector m [] bs2 with
        | none => none
        | some (xv, bs3) => some ((y, xv), bs3)) = some (e, t)
  rw [show read_i8 (i8_byte e.1 ::
      ((u32le e.2.length ++ (e.2.map (fun p => u32le p.1 ++ u64le p.2)).flatten) ++ t))
    = some (i8_val (i8_byte e.1),
        (u32le e.2.length ++ (e.2.map (fun p => u32le p.1 ++ u64le p.2)).flatten) ++ t) from rfl]
  rw [aux_i8_roundtrip e.1 h1 h2]
  dsimp only
  rw [List.append_assoc]
  rw [aux_read_u32 e.2.length hlen]
  dsimp only
  rw [aux_read_fv e.2 [] t hb]
  dsimp only
  rw [aux_fold_ensure e.2 [] hs (by intro p hp; simp at hp)]
  simp

/-- The reader loop parses back every written example when given at least as
much fuel as there are bytes. -/
theorem aux_read_examples (exs : List (Int × List (Nat × Nat))) :
    ∀ fuel : Nat,
      (∀ e ∈ exs, (-128 ≤ e.1 ∧ e.1 ≤ 127) ∧
        (e.2.map Prod.fst).Pairwise (· < ·) ∧
        (∀ p ∈ e.2, p.1 < 4294967296 ∧ p.2 < 18446744073709551616) ∧
        e.2.length < 4294967296) →
      ((exs.map write_sparse_example).flatten).length ≤ fuel →
      read_sparse_examples fuel ((exs.map write_sparse_example).flatten) = some exs := by
  induction exs with
  | nil =>
    intro fuel _ _
    cases fuel <;> rfl
  | cons e rest ih =>
    intro fuel hw hf
    have hwe := hw e (List.mem_cons_self e rest)
    have hcons : (((e :: rest).map write_sparse_example).flatten)
        = i8_byte e.1 ::
          ((u32le e.2.length ++ (e.2.map (fun p => u32le p.1 ++ u64le p.2)).flatten)
            ++ (rest.map write_sparse_example).flatten) := by
      simp only [List.map_cons, List.flatten_cons, write_sparse_example, List.cons_append]
    rw [hcons] at hf ⊢
    cases fuel with
    | zero => simp at hf
    | succ f =>
      show (match read_sparse_example (i8_byte e.1 :: _) with
        | none => none
        | some (e', rest') =>
          match read_sparse_examples f rest' with
          | none => none
          | some es => some (e' :: es)) = some (e :: rest)
      have hre : read_sparse_example (write_sparse_example e
          ++ (rest.map write_sparse_example).flatten)
          = some (e, (rest.map write_sparse_example).flatten) :=
        aux_read_example e _ hwe.1.1 hwe.1.2 hwe.2.1 hwe.2.2.1 hwe.2.2.2
      have hrest_len : ((rest.map write_sparse_example).flatten).length ≤ f := by
        simp only [List.length_cons, List.length_append] at hf
        omega
      rw [show (i8_byte e.1 ::
          ((u32le e.2.length ++ (e.2.map (fun p => u32le p.1 ++ u64le p.2)).flatten)
            ++ (rest.map write_sparse_example).flatten))
        = write_sparse_example e ++ (rest.map write_sparse_example).flatten from rfl]
      rw [hre]
      dsimp only
      rw [ih f (fun q hq => hw q (List.mem_cons.mpr (Or.inr hq))) hrest_len]

/-- Claim C7: writing any list of sparse examples with in-range labels,
strictly ascending 32-bit indices and 64-bit value patterns through the
binary sparse writer and reading the bytes back yields exactly the original
labels and index-value lists, including examples with no stored entries. -/
theorem binary_sparse_roundtrip (exs : List (Int × List (Nat × Nat)))
    (hw : ∀ e ∈ exs, (-128 ≤ e.1 ∧ e.1 ≤ 127) ∧
      (e.2.map Prod.fst).Pairwise (· < ·) ∧
      (∀ p ∈ e.2, p.1 < 4294967296 ∧ p.2 < 18446744073709551616) ∧
      e.2.length < 4294967296) :
    read_feature_file_sparse (write_feature_file_sparse exs) = some exs := by
  unfold write_feature_file_sparse read_feature_file_sparse
  exact aux_read_examples exs _ hw le_rfl

/-- Witness for the C7 theorem: the three-example scenario from the spec,
one example having no stored entries. -/
theorem binary_sparse_roundtrip_witness :
    read_feature_file_sparse (write_feature_file_sparse
      [(1, [(0, 1), (3, 25)]), (-1, [(1, 7)]), (1, [])])
      = some [(1, [(0, 1), (3, 25)]), (-1, [(1, 7)]), (1, [])] :=
  binary_sparse_roundtrip [(1, [(0, 1), (3, 25)]), (-1, [(1, 7)]), (1, [])]
    (by decide)

end parlearn
